import Mathlib

/-!
Shallow embedding of `okta_to_clickup_group_sync.py`, the single source file
of this repository.  The script reconciles Okta group membership into ClickUp
team groups:

* `match_users` (source lines 149-163) builds, per Okta group, the list of
  ClickUp user ids whose email matches a member email, using a Python dict
  whose entry for a group is only created when a first match is appended;
* `get_clickup_groups` (source lines 127-146) builds a Python dict from the
  fetched ClickUp groups, keyed by group name, filtered by the configured
  name prefixes, later entries overwriting earlier ones;
* `sync_groups` (source lines 166-226) walks the matched Okta groups, issues
  a ClickUp create-group request for each group name missing from the ClickUp
  dict, and for each name present computes `add`/`rem` as Python set
  differences and issues one update request exactly when one of them is
  non-empty; every request site is guarded by `if not DRY_RUN`.

Python dicts are modelled as association lists in insertion order; Python's
`list(set(a) - set(b))` is modelled by `sdiffL` (deduplicate, then filter) -
its element ordering is irrelevant to every claim, which treats the results
as sets.  The network requests the script performs are modelled as a list of
mutation intents (the constructed payloads); the executor `sync_groups_run`
records the requests actually sent, given the `DRY_RUN` flag and an oracle
`apply` returning the HTTP status of each request.
-/

namespace OktaClickUpSync

/-- A member of the ClickUp team roster (`user["user"]` in the source):
an id and an email address. -/
structure ClickUpUser where
  id : Nat
  email : String
deriving DecidableEq

/-- The value stored for a group name by `get_clickup_groups`:
`{"id": group["id"], "members": [member["id"] ...]}`. -/
structure ClickUpGroupProps where
  id : String
  members : List Nat
deriving DecidableEq

/-- A raw group as returned by the ClickUp `/group` endpoint, before
`get_clickup_groups` filters and re-keys it. -/
structure RawClickUpGroup where
  name : String
  id : String
  memberIds : List Nat
deriving DecidableEq

/-- A mutation the script sends to ClickUp: the POST create-group payload
`{"name": ..., "members": ...}` or the PUT membership-update payload
`{"members": {"add": ..., "rem": ...}}` against `/group/{id}`. -/
inductive MutationIntent where
  | createGroup (name : String) (memberIds : List Nat)
  | updateGroup (id : String) (name : String) (addIds : List Nat) (removeIds : List Nat)
deriving DecidableEq

/-- The group name an intent is about. -/
def intentName : MutationIntent → String
  | .createGroup name _ => name
  | .updateGroup _ name _ _ => name

/-- The ClickUp group id an intent references (`none` for a create, which
mentions no existing group id). -/
def intentGroupId : MutationIntent → Option String
  | .createGroup _ _ => none
  | .updateGroup gid _ _ _ => some gid

/-- Python dict access `d[k]` on an insertion-ordered association list:
the value of the first (for lists built like dicts, the only) entry whose
key equals `k`. -/
def lookupKey {α : Type} (d : List (String × α)) (k : String) : Option α :=
  (d.find? (fun p => p.1 == k)).map Prod.snd

/-- The Python statements
`if group not in d: d[group] = []` followed by `d[group].append(v)`:
append `v` to the entry for `k`, creating the entry at the end of the dict
when it is absent. -/
def dictAppend (d : List (String × List Nat)) (k : String) (v : Nat) :
    List (String × List Nat) :=
  if d.any (fun p => p.1 == k) then
    d.map (fun p => if p.1 = k then (p.1, p.2 ++ [v]) else p)
  else d ++ [(k, [v])]

/-- Python dict assignment `d[k] = v`: overwrite in place when the key is
present, append otherwise. -/
def dictInsert {α : Type} (d : List (String × α)) (k : String) (v : α) :
    List (String × α) :=
  if d.any (fun p => p.1 == k) then
    d.map (fun p => if p.1 = k then (p.1, v) else p)
  else d ++ [(k, v)]

/-- Source `match_users` (lines 149-163), with the two fetches replaced by
parameters: `okta` is the `get_okta_groups()` dict (group name to member
emails) and `clickup` the `get_clickup_users()` roster.  The triple-nested
loop appends, for each group, each email, each roster user with an equal
email (case-sensitive `==`), that user's id to the group's dict entry. -/
def match_users (okta : List (String × List String)) (clickup : List ClickUpUser) :
    List (String × List Nat) :=
  okta.foldl
    (fun acc g =>
      g.2.foldl
        (fun acc email =>
          clickup.foldl
            (fun acc user =>
              if user.email = email then dictAppend acc g.1 user.id else acc)
            acc)
        acc)
    []

/-- Python `str.startswith`, on the underlying character sequence. -/
def pyStartsWith (s pre : String) : Bool :=
  pre.data.isPrefixOf s.data

/-- Source `get_clickup_groups` (lines 127-146), with the fetch replaced by
the raw group list: keep groups whose name starts with one of the configured
prefixes and key them by name in a dict (a duplicate name overwrites). -/
def get_clickup_groups (prefixes : List String) (raw : List RawClickUpGroup) :
    List (String × ClickUpGroupProps) :=
  raw.foldl
    (fun acc g =>
      if prefixes.any (fun pre => pyStartsWith g.name pre) then
        dictInsert acc g.name ⟨g.id, g.memberIds⟩
      else acc)
    []

/-- Python `list(set(a) - set(b))` on lists of user ids, as used for `add`
and `rem` in `sync_groups` (lines 191-192).  CPython returns the difference
in unspecified order; the claims only use it as a set, so any concrete
order is faithful - we keep `a`'s elements (deduplicated) not in `b`. -/
def sdiffL (a b : List Nat) : List Nat :=
  a.dedup.filter (fun x => decide (x ∉ b))

/-- The body of the outer `for okta_group, okta_members in okta_groups.items()`
loop of `sync_groups` (lines 170-226), as the list of mutation payloads it
constructs: a create when the name is not among the ClickUp dict keys
(line 171), then, for every ClickUp entry with an equal name (lines 188-189),
an update exactly when `len(add) > 0 or len(rem) > 0` (line 207). -/
def diffOne (clickup_groups : List (String × ClickUpGroupProps))
    (okta_group : String) (okta_members : List Nat) : List MutationIntent :=
  (if clickup_groups.any (fun p => p.1 == okta_group) then []
   else [MutationIntent.createGroup okta_group okta_members]) ++
  clickup_groups.flatMap (fun p =>
    if okta_group = p.1 then
      if (sdiffL okta_members p.2.members).length > 0 ∨
         (sdiffL p.2.members okta_members).length > 0 then
        [MutationIntent.updateGroup p.2.id p.1
          (sdiffL okta_members p.2.members) (sdiffL p.2.members okta_members)]
      else []
    else [])

/-- The full plan of `sync_groups` (lines 166-226): the mutation payloads
constructed over all matched Okta groups, in the dict's iteration
(insertion) order. -/
def sync_groups_plan (okta_groups : List (String × List Nat))
    (clickup_groups : List (String × ClickUpGroupProps)) : List MutationIntent :=
  okta_groups.flatMap (fun og => diffOne clickup_groups og.1 og.2)

/-- One outer-loop iteration of `sync_groups` as executed: the requests the
script actually sends.  Each payload site is guarded by `if not DRY_RUN`
(lines 181 and 216); a sent request's response status (the value
`log_response` records, line 183/218 - the script never raises on a bad
status and never breaks out of the loop) is given by the oracle `apply`. -/
def runOne (dryRun : Bool) (apply : MutationIntent → Nat)
    (clickup_groups : List (String × ClickUpGroupProps))
    (okta_group : String) (okta_members : List Nat) : List (MutationIntent × Nat) :=
  (if clickup_groups.any (fun p => p.1 == okta_group) then []
   else
     if dryRun then []
     else [(MutationIntent.createGroup okta_group okta_members,
            apply (MutationIntent.createGroup okta_group okta_members))]) ++
  clickup_groups.flatMap (fun p =>
    if okta_group = p.1 then
      if (sdiffL okta_members p.2.members).length > 0 ∨
         (sdiffL p.2.members okta_members).length > 0 then
        if dryRun then []
        else [(MutationIntent.updateGroup p.2.id p.1
                 (sdiffL okta_members p.2.members) (sdiffL p.2.members okta_members),
               apply (MutationIntent.updateGroup p.2.id p.1
                 (sdiffL okta_members p.2.members) (sdiffL p.2.members okta_members)))]
      else []
    else [])

/-- The sequence of HTTP mutation requests `sync_groups` sends in one run,
with each request's response status. -/
def sync_groups_run (dryRun : Bool) (apply : MutationIntent → Nat)
    (okta_groups : List (String × List Nat))
    (clickup_groups : List (String × ClickUpGroupProps)) :
    List (MutationIntent × Nat) :=
  okta_groups.flatMap (fun og => runOne dryRun apply clickup_groups og.1 og.2)

/-- The value the Python function `sync_groups` returns to its caller: the
function body (lines 166-226) contains no `return` statement, so the caller
receives `None` whatever the responses were.  Modelled as the constant
`none` of the type a collected outcome report would have. -/
def sync_groups_ret (dryRun : Bool) (apply : MutationIntent → Nat)
    (okta_groups : List (String × List Nat))
    (clickup_groups : List (String × ClickUpGroupProps)) :
    Option (List (MutationIntent × Nat)) :=
  none

/-- Applying one mutation intent to a target-group snapshot, as claim C6
describes it: a create appends the new group with its member set, an update
removes `removeIds` from and appends `addIds` to its group (correlated by
name, the script's join key).  `freshId` assigns the id ClickUp would give a
created group. -/
def applyIntent (freshId : String → String)
    (cg : List (String × ClickUpGroupProps)) :
    MutationIntent → List (String × ClickUpGroupProps)
  | .createGroup name mems => cg ++ [(name, ⟨freshId name, mems⟩)]
  | .updateGroup _ name add rem =>
      cg.map (fun p =>
        if p.1 = name then
          (p.1, ⟨p.2.id, p.2.members.filter (fun x => decide (x ∉ rem)) ++ add⟩)
        else p)

/-- Applying a list of mutation intents in order. -/
def applyIntents (freshId : String → String)
    (cg : List (String × ClickUpGroupProps)) (intents : List MutationIntent) :
    List (String × ClickUpGroupProps) :=
  intents.foldl (applyIntent freshId) cg

/-- All user ids a list of emails resolves to against the roster: for each
email, the ids of every roster user with an equal email, in roster order.
This is the per-group value `match_users` accumulates (proved below). -/
def resolveAll (clickup : List ClickUpUser) (emails : List String) : List Nat :=
  emails.flatMap (fun email =>
    (clickup.filter (fun u => u.email == email)).map (fun u => u.id))

/-- The dict entry a group contributes: none when its accumulated id list is
empty (the dict entry was never created), the singleton entry otherwise. -/
def optEntry (k : String) (l : List Nat) : List (String × List Nat) :=
  if l.isEmpty then [] else [(k, l)]

/-- The names of the groups a list of intents creates, in order. -/
def createdNames : List MutationIntent → List String
  | [] => []
  | .createGroup n _ :: rest => n :: createdNames rest
  | .updateGroup _ _ _ _ :: rest => createdNames rest

/-- Lexicographic less-or-equal on character sequences (Python's string
comparison), used to state name-ascending ordering. -/
def charListLeb : List Char → List Char → Bool
  | [], _ => true
  | _ :: _, [] => false
  | c :: cs, d :: ds => if c < d then true else if d < c then false else charListLeb cs ds

/-- Lexicographic less-or-equal on strings. -/
def strLeb (a b : String) : Bool :=
  charListLeb a.data b.data

/-! Basic lemmas about the set-difference and dict operations. -/

theorem mem_sdiffL {x : Nat} {a b : List Nat} :
    x ∈ sdiffL a b ↔ x ∈ a ∧ x ∉ b := by
  simp [sdiffL, List.mem_filter, List.mem_dedup]

theorem sdiffL_eq_nil {a b : List Nat} :
    sdiffL a b = [] ↔ ∀ x ∈ a, x ∈ b := by
  simp [sdiffL, List.filter_eq_nil_iff, List.mem_dedup]

theorem lookupKey_eq_none {α : Type} {d : List (String × α)} {k : String} :
    lookupKey d k = none ↔ ∀ p ∈ d, p.1 ≠ k := by
  simp [lookupKey, List.find?_eq_none]

theorem lookupKey_mem {α : Type} {d : List (String × α)} {k : String} {v : α}
    (h : lookupKey d k = some v) : (k, v) ∈ d := by
  unfold lookupKey at h
  rw [Option.map_eq_some'] at h
  obtain ⟨p, hp, hv⟩ := h
  have hk : p.1 = k := by
    have := List.find?_some hp
    simpa using this
  have hmem := List.mem_of_find?_eq_some hp
  have : p = (k, v) := by
    cases p
    simp_all
  rwa [this] at hmem

theorem lookupKey_of_mem_nodup {α : Type} {d : List (String × α)} {k : String} {v : α}
    (hnd : (d.map Prod.fst).Nodup) (h : (k, v) ∈ d) : lookupKey d k = some v := by
  induction d with
  | nil => cases h
  | cons p rest ih =>
    rw [List.map_cons, List.nodup_cons] at hnd
    rcases List.mem_cons.mp h with h | h
    · subst h
      unfold lookupKey
      rw [List.find?_cons]
      simp
    · have hne : p.1 ≠ k := by
        intro he
        exact hnd.1 (he ▸ (List.mem_map.mpr ⟨(k, v), h, rfl⟩))
      unfold lookupKey
      rw [List.find?_cons]
      have : (p.1 == k) = false := by simpa using hne
      rw [this]
      exact ih hnd.2 h

theorem flatMap_eq_nil_of_lookup_none {α β : Type} {d : List (String × α)} {k : String}
    {f : (String × α) → List β} (hf : ∀ p, p.1 ≠ k → f p = [])
    (h : lookupKey d k = none) : d.flatMap f = [] := by
  rw [List.flatMap_eq_nil_iff]
  intro p hp
  exact hf p (lookupKey_eq_none.mp h p hp)

theorem flatMap_eq_of_lookup_some {α β : Type} {d : List (String × α)} {k : String} {v : α}
    {f : (String × α) → List β} (hf : ∀ p, p.1 ≠ k → f p = [])
    (hnd : (d.map Prod.fst).Nodup) (h : lookupKey d k = some v) :
    d.flatMap f = f (k, v) := by
  induction d with
  | nil => simp [lookupKey] at h
  | cons p rest ih =>
    rw [List.map_cons, List.nodup_cons] at hnd
    unfold lookupKey at h
    rw [List.find?_cons] at h
    by_cases hk : p.1 = k
    · have hbeq : (p.1 == k) = true := by simpa using hk
      rw [hbeq] at h
      simp only [Option.map_some'] at h
      have hrest : rest.flatMap f = [] := by
        refine flatMap_eq_nil_of_lookup_none hf (lookupKey_eq_none.mpr ?_)
        intro q hq he
        exact hnd.1 (by rw [hk, ← he]; exact List.mem_map.mpr ⟨q, hq, rfl⟩)
      have hp : p = (k, v) := by
        cases p
        simp_all
      rw [List.flatMap_cons, hrest, List.append_nil, hp]
    · have hbeq : (p.1 == k) = false := by simpa using hk
      rw [hbeq] at h
      rw [List.flatMap_cons, hf p hk, List.nil_append]
      exact ih hnd.2 h

/-! Characterization of the per-group diff. -/

theorem updateBranch_nil {n : String} (p : String × ClickUpGroupProps) {m : List Nat}
    (h : p.1 ≠ n) :
    (if n = p.1 then
      if (sdiffL m p.2.members).length > 0 ∨ (sdiffL p.2.members m).length > 0 then
        [MutationIntent.updateGroup p.2.id p.1 (sdiffL m p.2.members) (sdiffL p.2.members m)]
      else []
    else []) = [] := by
  rw [if_neg (fun he => h he.symm)]

theorem diffOne_absent {cg : List (String × ClickUpGroupProps)} {n : String} {m : List Nat}
    (h : lookupKey cg n = none) : diffOne cg n m = [MutationIntent.createGroup n m] := by
  have hall : ∀ p ∈ cg, p.1 ≠ n := lookupKey_eq_none.mp h
  unfold diffOne
  have hany : cg.any (fun p => p.1 == n) = false := by
    rw [List.any_eq_false]
    intro p hp
    simpa using hall p hp
  rw [hany]
  rw [flatMap_eq_nil_of_lookup_none (fun p hp => updateBranch_nil p hp) h]
  simp

theorem diffOne_present {cg : List (String × ClickUpGroupProps)} {n : String}
    {props : ClickUpGroupProps} {m : List Nat}
    (hnd : (cg.map Prod.fst).Nodup) (h : lookupKey cg n = some props) :
    diffOne cg n m =
      if (sdiffL m props.members).length > 0 ∨ (sdiffL props.members m).length > 0 then
        [MutationIntent.updateGroup props.id n (sdiffL m props.members) (sdiffL props.members m)]
      else [] := by
  have hmem : (n, props) ∈ cg := lookupKey_mem h
  have hany : cg.any (fun p => p.1 == n) = true := by
    rw [List.any_eq_true]
    exact ⟨(n, props), hmem, by simp⟩
  unfold diffOne
  rw [hany]
  rw [flatMap_eq_of_lookup_some (fun p hp => updateBranch_nil p hp) hnd h]
  simp

theorem intentName_of_mem_diffOne {cg : List (String × ClickUpGroupProps)}
    {n : String} {m : List Nat} {i : MutationIntent}
    (h : i ∈ diffOne cg n m) : intentName i = n := by
  unfold diffOne at h
  rw [List.mem_append] at h
  rcases h with h | h
  · split at h
    · cases h
    · rcases List.mem_singleton.mp h with rfl
      rfl
  · rw [List.mem_flatMap] at h
    obtain ⟨p, _, hi⟩ := h
    by_cases he : n = p.1
    · rw [if_pos he] at hi
      split at hi
      · rcases List.mem_singleton.mp hi with rfl
        exact he.symm
      · cases hi
    · rw [if_neg he] at hi
      cases hi

theorem mem_plan {okta : List (String × List Nat)}
    {cg : List (String × ClickUpGroupProps)} {i : MutationIntent} :
    i ∈ sync_groups_plan okta cg ↔ ∃ og ∈ okta, i ∈ diffOne cg og.1 og.2 := by
  simp [sync_groups_plan, List.mem_flatMap]

theorem intentName_of_mem_plan {okta : List (String × List Nat)}
    {cg : List (String × ClickUpGroupProps)} {i : MutationIntent}
    (h : i ∈ sync_groups_plan okta cg) : intentName i ∈ okta.map Prod.fst := by
  obtain ⟨og, hog, hi⟩ := mem_plan.mp h
  rw [intentName_of_mem_diffOne hi]
  exact List.mem_map.mpr ⟨og, hog, rfl⟩

theorem plan_filter_name {okta : List (String × List Nat)}
    {cg : List (String × ClickUpGroupProps)} {n : String} {m : List Nat}
    (hok : (okta.map Prod.fst).Nodup) (hmem : (n, m) ∈ okta) :
    (sync_groups_plan okta cg).filter (fun i => intentName i == n) = diffOne cg n m := by
  induction okta with
  | nil => cases hmem
  | cons og rest ih =>
    rw [List.map_cons, List.nodup_cons] at hok
    have hcons : sync_groups_plan (og :: rest) cg =
        diffOne cg og.1 og.2 ++ sync_groups_plan rest cg := by
      simp [sync_groups_plan]
    rw [hcons, List.filter_append]
    rcases List.mem_cons.mp hmem with h | h
    · have hfst : og.1 = n := by rw [← h]
      have hsnd : og.2 = m := by rw [← h]
      have h1 : (diffOne cg og.1 og.2).filter (fun i => intentName i == n) =
          diffOne cg og.1 og.2 := by
        rw [List.filter_eq_self]
        intro i hi
        simp [intentName_of_mem_diffOne hi, hfst]
      have h2 : (sync_groups_plan rest cg).filter (fun i => intentName i == n) = [] := by
        rw [List.filter_eq_nil_iff]
        intro i hi
        have := intentName_of_mem_plan hi
        simp only [beq_iff_eq]
        intro he
        exact hok.1 (by rw [hfst, ← he]; exact this)
      rw [h1, h2, List.append_nil, hfst, hsnd]
    · have hne : og.1 ≠ n := by
        intro he
        exact hok.1 (by rw [he]; exact List.mem_map.mpr ⟨(n, m), h, rfl⟩)
      have h1 : (diffOne cg og.1 og.2).filter (fun i => intentName i == n) = [] := by
        rw [List.filter_eq_nil_iff]
        intro i hi
        simp [intentName_of_mem_diffOne hi, hne]
      rw [h1, List.nil_append]
      exact ih hok.2 h

/-! Inversion lemmas: what a create or update intent in a per-group diff
tells us about the snapshots. -/

theorem mem_diffOne_create_inv {cg : List (String × ClickUpGroupProps)}
    {n nm : String} {m mems : List Nat}
    (h : MutationIntent.createGroup nm mems ∈ diffOne cg n m) :
    nm = n ∧ mems = m ∧ ∀ p ∈ cg, p.1 ≠ n := by
  unfold diffOne at h
  rw [List.mem_append] at h
  rcases h with h | h
  · rcases hany : cg.any (fun p => p.1 == n) with _ | _
    · rw [hany] at h
      simp only [Bool.false_eq_true, if_false, List.mem_singleton] at h
      rcases h with ⟨rfl, rfl⟩
      refine ⟨rfl, rfl, ?_⟩
      rw [List.any_eq_false] at hany
      intro p hp
      simpa using hany p hp
    · rw [hany] at h
      simp at h
  · rw [List.mem_flatMap] at h
    obtain ⟨p, _, hi⟩ := h
    by_cases he : n = p.1
    · rw [if_pos he] at hi
      split at hi
      · simp at hi
      · cases hi
    · rw [if_neg he] at hi
      cases hi

theorem mem_diffOne_update_inv {cg : List (String × ClickUpGroupProps)}
    {n nm gid : String} {m add rem : List Nat}
    (h : MutationIntent.updateGroup gid nm add rem ∈ diffOne cg n m) :
    ∃ p ∈ cg, p.1 = n ∧ nm = n ∧ gid = p.2.id ∧
      add = sdiffL m p.2.members ∧ rem = sdiffL p.2.members m ∧
      ((sdiffL m p.2.members).length > 0 ∨ (sdiffL p.2.members m).length > 0) := by
  unfold diffOne at h
  rw [List.mem_append] at h
  rcases h with h | h
  · split at h
    · cases h
    · simp at h
  · rw [List.mem_flatMap] at h
    obtain ⟨p, hp, hi⟩ := h
    by_cases he : n = p.1
    · rw [if_pos he] at hi
      split at hi
      · rw [List.mem_singleton] at hi
        injection hi with h1 h2 h3 h4
        exact ⟨p, hp, he.symm, by rw [h2, he], h1, h3, h4, by assumption⟩
      · cases hi
    · rw [if_neg he] at hi
      cases hi

/-- At most one intent comes out of one group's diff, when the ClickUp dict
has no duplicate names. -/
theorem diffOne_length_le (cg : List (String × ClickUpGroupProps)) (n : String)
    (m : List Nat) (hcg : (cg.map Prod.fst).Nodup) :
    (diffOne cg n m).length ≤ 1 := by
  rcases h : lookupKey cg n with _ | props
  · rw [diffOne_absent h]
    exact Nat.le_refl 1
  · rw [diffOne_present hcg h]
    split
    · exact Nat.le_refl 1
    · exact Nat.zero_le 1

/-! Claim theorems. -/

/-- Claim C1: for every group name in the desired membership mapping, the
diff engine emits exactly one `CreateGroup` carrying the desired member set
when the name is absent from the existing ClickUp groups; when the name is
present with properties `props`, it emits nothing when the desired and
current member sets coincide, and otherwise exactly one `UpdateGroup` with
`props.id`, where the add list is the set difference desired minus current
and the remove list the set difference current minus desired. -/
theorem C1_group_diff_engine
    (okta : List (String × List Nat)) (cg : List (String × ClickUpGroupProps))
    (n : String) (m : List Nat)
    (hok : (okta.map Prod.fst).Nodup) (hcg : (cg.map Prod.fst).Nodup)
    (hmem : (n, m) ∈ okta) :
    (lookupKey cg n = none →
      (sync_groups_plan okta cg).filter (fun i => intentName i == n) =
        [MutationIntent.createGroup n m]) ∧
    (∀ props : ClickUpGroupProps, lookupKey cg n = some props →
      (((∀ x ∈ m, x ∈ props.members) ∧ (∀ x ∈ props.members, x ∈ m)) →
        (sync_groups_plan okta cg).filter (fun i => intentName i == n) = []) ∧
      (¬ ((∀ x ∈ m, x ∈ props.members) ∧ (∀ x ∈ props.members, x ∈ m)) →
        ((sync_groups_plan okta cg).filter (fun i => intentName i == n) =
          [MutationIntent.updateGroup props.id n (sdiffL m props.members)
            (sdiffL props.members m)]) ∧
        (∀ x, x ∈ sdiffL m props.members ↔ x ∈ m ∧ x ∉ props.members) ∧
        (∀ x, x ∈ sdiffL props.members m ↔ x ∈ props.members ∧ x ∉ m))) := by
  rw [plan_filter_name hok hmem]
  refine ⟨fun h => diffOne_absent h, fun props h => ⟨fun hsame => ?_, fun hdiff => ?_⟩⟩
  · have ha : sdiffL m props.members = [] := sdiffL_eq_nil.mpr hsame.1
    have hb : sdiffL props.members m = [] := sdiffL_eq_nil.mpr hsame.2
    rw [diffOne_present hcg h, ha, hb]
    simp
  · refine ⟨?_, fun x => mem_sdiffL, fun x => mem_sdiffL⟩
    rw [diffOne_present hcg h, if_pos]
    by_contra hc
    rw [not_or] at hc
    have ha : sdiffL m props.members = [] :=
      List.length_eq_zero.mp (Nat.eq_zero_of_not_pos hc.1)
    have hb : sdiffL props.members m = [] :=
      List.length_eq_zero.mp (Nat.eq_zero_of_not_pos hc.2)
    exact hdiff ⟨sdiffL_eq_nil.mp ha, sdiffL_eq_nil.mp hb⟩

/-- Claim C1 witness: scenario B of the spec at a concrete input. -/
theorem C1_group_diff_engine_witness :
    (sync_groups_plan [("g", [1, 2])] [("g", ⟨"G", [2, 3]⟩)]).filter
        (fun i => intentName i == "g") =
      [MutationIntent.updateGroup "G" "g" [1] [3]] := by
  have h := (C1_group_diff_engine [("g", [1, 2])] [("g", ⟨"G", [2, 3]⟩)] "g" [1, 2]
      (by decide) (by decide) (by decide)).2 ⟨"G", [2, 3]⟩ rfl
  have h2 := (h.2 (by decide)).1
  rw [h2]
  decide

/-- Claim C3: a ClickUp group whose name is absent from the desired mapping
is never referenced by any planned mutation - the engine never deletes or
modifies such a group (ClickUp group ids being distinct). -/
theorem C3_no_deletions
    (okta : List (String × List Nat)) (cg : List (String × ClickUpGroupProps))
    (hids : (cg.map (fun p => p.2.id)).Nodup)
    (n : String) (props : ClickUpGroupProps)
    (hmem : (n, props) ∈ cg)
    (habs : n ∉ okta.map Prod.fst) :
    ∀ i ∈ sync_groups_plan okta cg, intentGroupId i ≠ some props.id := by
  intro i hi
  obtain ⟨og, hog, hdi⟩ := mem_plan.mp hi
  match i with
  | .createGroup nm mems =>
    simp [intentGroupId]
  | .updateGroup gid nm add rem =>
    obtain ⟨p, hp, hpn, _, hgid, _⟩ := mem_diffOne_update_inv hdi
    intro he
    have he2 : gid = props.id := by simpa [intentGroupId] using he
    have hpe : p = (n, props) := by
      apply List.inj_on_of_nodup_map hids hp hmem
      rw [← hgid, he2]
    apply habs
    have : og.1 = n := by rw [← hpn, hpe]
    rw [← this]
    exact List.mem_map.mpr ⟨og, hog, rfl⟩

/-- Claim C3 witness: the one intent planned for a concrete snapshot does
not reference the ClickUp group `"old"`, which is absent from the desired
mapping. -/
theorem C3_no_deletions_witness :
    intentGroupId (MutationIntent.updateGroup "G" "g" [2] []) ≠ some "H" :=
  C3_no_deletions [("g", [1, 2])] [("g", ⟨"G", [1]⟩), ("old", ⟨"H", [5]⟩)]
    (by decide) "old" ⟨"H", [5]⟩ (by decide) (by decide)
    (MutationIntent.updateGroup "G" "g" [2] []) (by decide)

/-- Claim C4: every planned `UpdateGroup` has disjoint add and remove lists,
and at least one of the two is non-empty. -/
theorem C4_update_disjoint_nonempty
    (okta : List (String × List Nat)) (cg : List (String × ClickUpGroupProps))
    (gid nm : String) (add rem : List Nat)
    (h : MutationIntent.updateGroup gid nm add rem ∈ sync_groups_plan okta cg) :
    (∀ x ∈ add, x ∉ rem) ∧ (add ≠ [] ∨ rem ≠ []) := by
  obtain ⟨og, _, hdi⟩ := mem_plan.mp h
  obtain ⟨p, _, _, _, _, hadd, hrem, hne⟩ := mem_diffOne_update_inv hdi
  subst hadd
  subst hrem
  constructor
  · intro x hx hx2
    have h1 := mem_sdiffL.mp hx
    have h2 := mem_sdiffL.mp hx2
    exact h1.2 h2.1
  · rcases hne with hne | hne
    · exact Or.inl (List.length_pos.mp hne)
    · exact Or.inr (List.length_pos.mp hne)

/-- Claim C4 witness: the update planned for a concrete snapshot has
disjoint add and remove lists and a non-empty side. -/
theorem C4_update_disjoint_nonempty_witness :
    (∀ x ∈ [1], x ∉ [3]) ∧ ([1] ≠ [] ∨ ([3] : List Nat) ≠ []) := by
  have h := C4_update_disjoint_nonempty [("g", [1, 2])] [("g", ⟨"G", [2, 3]⟩)]
    "G" "g" [1] [3] (by decide)
  exact h

/-- With the dry-run flag set, one outer-loop iteration sends nothing. -/
theorem runOne_dry (apply : MutationIntent → Nat)
    (cg : List (String × ClickUpGroupProps)) (n : String) (m : List Nat) :
    runOne true apply cg n m = [] := by
  unfold runOne
  rw [List.append_eq_nil]
  constructor
  · split <;> simp
  · rw [List.flatMap_eq_nil_iff]
    intro p _
    split
    · split <;> simp
    · rfl

/-- Without the dry-run flag, one outer-loop iteration sends exactly the
payloads its diff constructs, each receiving its own response. -/
theorem runOne_false_eq (apply : MutationIntent → Nat)
    (cg : List (String × ClickUpGroupProps)) (n : String) (m : List Nat) :
    runOne false apply cg n m = (diffOne cg n m).map (fun i => (i, apply i)) := by
  unfold runOne diffOne
  rw [List.map_append, List.map_flatMap]
  congr 1
  · split <;> simp
  · congr 1
    funext p
    split
    · split <;> simp
    · rfl

/-- Claim C5: with the dry-run flag set, no mutation request is ever sent
to ClickUp, for every snapshot and every response oracle. -/
theorem C5_dry_run_purity (apply : MutationIntent → Nat)
    (okta : List (String × List Nat)) (cg : List (String × ClickUpGroupProps)) :
    sync_groups_run true apply okta cg = [] := by
  unfold sync_groups_run
  rw [List.flatMap_eq_nil_iff]
  intro og _
  exact runOne_dry apply cg og.1 og.2

/-- Claim C9 (amended): without the dry-run flag, every planned intent is
sent, in plan order, each paired with its own response - the responses
(including failures) of earlier requests never abort the later ones.  The
outcomes are logged, not returned: see the counterexample for the
returned value. -/
theorem C9_best_effort (apply : MutationIntent → Nat)
    (okta : List (String × List Nat)) (cg : List (String × ClickUpGroupProps)) :
    sync_groups_run false apply okta cg =
      (sync_groups_plan okta cg).map (fun i => (i, apply i)) := by
  unfold sync_groups_run sync_groups_plan
  rw [List.map_flatMap]
  congr 1
  funext og
  exact runOne_false_eq apply cg og.1 og.2

/-- Claim C9 counterexample: a run whose single mutation request fails
(status 500) still returns `none` to the caller - the Python function has
no return statement - so the outcomes are not collected and returned. -/
theorem C9_counterexample :
    sync_groups_run false (fun _ => 500) [("g", [1])] [] =
      [(MutationIntent.createGroup "g" [1], 500)] ∧
    sync_groups_ret false (fun _ => 500) [("g", [1])] [] = none :=
  ⟨rfl, rfl⟩

/-- Every name in one group's diff is that group's name, so the diff's name
list is nil or the singleton of that name. -/
theorem diffOne_names (cg : List (String × ClickUpGroupProps)) (n : String)
    (m : List Nat) (hcg : (cg.map Prod.fst).Nodup) :
    (diffOne cg n m).map intentName = [] ∨ (diffOne cg n m).map intentName = [n] := by
  rcases hl : diffOne cg n m with _ | ⟨i, t⟩
  · exact Or.inl rfl
  · rcases t with _ | ⟨j, t2⟩
    · right
      rw [List.map_singleton]
      rw [intentName_of_mem_diffOne (hl ▸ List.mem_singleton_self i)]
    · have := diffOne_length_le cg n m hcg
      rw [hl] at this
      simp at this

/-- Claim C8 (amended): the planned intents follow the desired mapping's
iteration (insertion) order - their name sequence is a subsequence of the
mapping's key sequence - and permuting the mapping permutes the plan, so
the intent multiset is iteration-order independent; the list itself is not
re-sorted by name (see the counterexample). -/
theorem C8_plan_order (okta okta2 : List (String × List Nat))
    (cg : List (String × ClickUpGroupProps))
    (hcg : (cg.map Prod.fst).Nodup) (hperm : okta.Perm okta2) :
    (sync_groups_plan okta cg).Perm (sync_groups_plan okta2 cg) ∧
    ((sync_groups_plan okta cg).map intentName).Sublist (okta.map Prod.fst) := by
  refine ⟨List.Perm.flatMap_right _ hperm, ?_⟩
  clear hperm
  induction okta with
  | nil => simp [sync_groups_plan]
  | cons og rest ih =>
    have hcons : sync_groups_plan (og :: rest) cg =
        diffOne cg og.1 og.2 ++ sync_groups_plan rest cg := by
      simp [sync_groups_plan]
    rw [hcons, List.map_append, List.map_cons]
    rcases diffOne_names cg og.1 og.2 hcg with h | h
    · rw [h, List.nil_append]
      exact List.Sublist.cons _ ih
    · rw [h]
      exact List.Sublist.cons₂ _ ih

/-- Claim C8 witness: two insertion orders of the same desired mapping give
plans that are permutations of each other, and the plan's names follow the
insertion order. -/
theorem C8_plan_order_witness :
    (sync_groups_plan [("b", [1]), ("a", [1])] []).Perm
      (sync_groups_plan [("a", [1]), ("b", [1])] []) ∧
    ((sync_groups_plan [("b", [1]), ("a", [1])] []).map intentName).Sublist
      ["b", "a"] := by
  have h := C8_plan_order [("b", [1]), ("a", [1])] [("a", [1]), ("b", [1])] []
    (by decide) (by decide)
  exact h

/-- Claim C8 counterexample: a desired mapping whose insertion order is
name-descending yields a plan in that same descending order, not sorted by
name ascending. -/
theorem C8_counterexample :
    (sync_groups_plan [("b", [1]), ("a", [1])] []).map intentName = ["b", "a"] ∧
    ¬ List.Pairwise (fun x y => strLeb x y = true)
        ((sync_groups_plan [("b", [1]), ("a", [1])] []).map intentName) := by
  refine ⟨rfl, ?_⟩
  decide

/-! The membership matcher: characterizing the dict `match_users` builds. -/

theorem dictAppend_of_not_mem {d : List (String × List Nat)} {k : String} {v : Nat}
    (h : ∀ p ∈ d, p.1 ≠ k) : dictAppend d k v = d ++ [(k, [v])] := by
  unfold dictAppend
  have hany : d.any (fun p => p.1 == k) = false := by
    rw [List.any_eq_false]
    intro p hp
    simpa using h p hp
  rw [hany]
  simp

theorem dictAppend_last {d0 : List (String × List Nat)} {k : String}
    {l : List Nat} {v : Nat} (h : ∀ p ∈ d0, p.1 ≠ k) :
    dictAppend (d0 ++ [(k, l)]) k v = d0 ++ [(k, l ++ [v])] := by
  unfold dictAppend
  have hany : (d0 ++ [(k, l)]).any (fun p => p.1 == k) = true := by
    rw [List.any_eq_true]
    exact ⟨(k, l), by simp, by simp⟩
  rw [hany]
  simp only [if_true]
  rw [List.map_append]
  congr 1
  · have heq : ∀ p ∈ d0, (if p.1 = k then (p.1, p.2 ++ [v]) else p) = p :=
      fun p hp => if_neg (h p hp)
    rw [List.map_congr_left heq]
    simp
  · simp

theorem foldl_users_eq (k e : String) (users : List ClickUpUser) :
    ∀ (acc0 : List (String × List Nat)) (l : List Nat), (∀ p ∈ acc0, p.1 ≠ k) →
      users.foldl (fun acc user => if user.email = e then dictAppend acc k user.id else acc)
          (acc0 ++ optEntry k l) =
        acc0 ++ optEntry k (l ++ (users.filter (fun u => u.email == e)).map (fun u => u.id)) := by
  induction users with
  | nil =>
    intro acc0 l h
    simp
  | cons u us ih =>
    intro acc0 l h
    rw [List.foldl_cons, List.filter_cons]
    by_cases hu : u.email = e
    · have hbeq : (u.email == e) = true := by simpa using hu
      rw [if_pos hu, hbeq]
      simp only [if_true]
      have hstep : dictAppend (acc0 ++ optEntry k l) k u.id =
          acc0 ++ optEntry k (l ++ [u.id]) := by
        by_cases hl : l.isEmpty
        · have hnil : l = [] := List.isEmpty_iff.mp hl

          subst hnil
          have h1 : optEntry k ([] : List Nat) = [] := rfl
          have h2 : optEntry k ([] ++ [u.id]) = [(k, [u.id])] := rfl
          rw [h1, h2, List.append_nil]
          exact dictAppend_of_not_mem h
        · have h1 : optEntry k l = [(k, l)] := by rw [optEntry, if_neg hl]
          have h2 : optEntry k (l ++ [u.id]) = [(k, l ++ [u.id])] := by
            rw [optEntry, if_neg (by simp)]
          rw [h1, h2, dictAppend_last h]
      rw [hstep, ih acc0 (l ++ [u.id]) h]
      congr 1
      rw [List.map_cons, List.append_assoc]
      rfl
    · have hbeq : (u.email == e) = false := by simpa using hu
      rw [if_neg hu, hbeq]
      simp only [Bool.false_eq_true, if_false]
      exact ih acc0 l h

theorem foldl_emails_eq (k : String) (cu : List ClickUpUser) (emails : List String) :
    ∀ (acc0 : List (String × List Nat)) (l : List Nat), (∀ p ∈ acc0, p.1 ≠ k) →
      emails.foldl
          (fun acc email =>
            cu.foldl (fun acc user => if user.email = email then dictAppend acc k user.id else acc) acc)
          (acc0 ++ optEntry k l) =
        acc0 ++ optEntry k (l ++ resolveAll cu emails) := by
  induction emails with
  | nil =>
    intro acc0 l h
    simp [resolveAll]
  | cons e es ih =>
    intro acc0 l h
    rw [List.foldl_cons, foldl_users_eq k e cu acc0 l h,
      ih acc0 (l ++ (cu.filter (fun u => u.email == e)).map (fun u => u.id)) h]
    congr 1
    have hres : resolveAll cu (e :: es) =
        (cu.filter (fun u => u.email == e)).map (fun u => u.id) ++ resolveAll cu es := rfl
    rw [hres, List.append_assoc]

theorem match_users_aux (cu : List ClickUpUser) :
    ∀ (okta : List (String × List String)) (acc : List (String × List Nat)),
      (∀ g ∈ okta, ∀ p ∈ acc, p.1 ≠ g.1) → (okta.map Prod.fst).Nodup →
      okta.foldl
          (fun acc g =>
            g.2.foldl
              (fun acc email =>
                cu.foldl
                  (fun acc user =>
                    if user.email = email then dictAppend acc g.1 user.id else acc)
                  acc)
              acc)
          acc =
        acc ++ (okta.map (fun g => (g.1, resolveAll cu g.2))).filter
          (fun p => !p.2.isEmpty) := by
  intro okta
  induction okta with
  | nil =>
    intro acc _ _
    simp
  | cons g rest ih =>
    intro acc hacc hok
    rw [List.map_cons, List.nodup_cons] at hok
    rw [List.foldl_cons]
    have haccg : ∀ p ∈ acc, p.1 ≠ g.1 := hacc g (List.mem_cons_self g rest)
    have hstep :
        g.2.foldl
            (fun acc email =>
              cu.foldl
                (fun acc user =>
                  if user.email = email then dictAppend acc g.1 user.id else acc)
                acc)
            acc =
          acc ++ optEntry g.1 (resolveAll cu g.2) := by
      have h1 := foldl_emails_eq g.1 cu g.2 acc [] haccg
      have h0 : acc ++ optEntry g.1 ([] : List Nat) = acc := by
        rw [optEntry]
        simp
      rw [h0, List.nil_append] at h1
      exact h1
    rw [hstep]
    have hacc2 : ∀ g2 ∈ rest, ∀ p ∈ acc ++ optEntry g.1 (resolveAll cu g.2), p.1 ≠ g2.1 := by
      intro g2 hg2 p hp
      rcases List.mem_append.mp hp with hp | hp
      · exact hacc g2 (List.mem_cons_of_mem g hg2) p hp
      · have hpk : p.1 = g.1 := by
          rw [optEntry] at hp
          split at hp
          · cases hp
          · rcases List.mem_singleton.mp hp with rfl
            rfl
        rw [hpk]
        intro he
        exact hok.1 (he ▸ List.mem_map.mpr ⟨g2, hg2, rfl⟩)
    rw [ih (acc ++ optEntry g.1 (resolveAll cu g.2)) hacc2 hok.2]
    rw [List.map_cons, List.filter_cons, List.append_assoc]
    congr 1
    by_cases hX : (resolveAll cu g.2).isEmpty
    · rw [optEntry, if_pos hX, hX]
      simp
    · have hb : (resolveAll cu g.2).isEmpty = false := Bool.eq_false_iff.mpr hX
      rw [optEntry, if_neg hX, hb]
      simp

/-- The dict `match_users` builds, in closed form: one entry per source
group in order, holding all resolved ids, with the groups whose id list
came out empty dropped (their dict entry was never created). -/
theorem match_users_eq (okta : List (String × List String)) (cu : List ClickUpUser)
    (hok : (okta.map Prod.fst).Nodup) :
    match_users okta cu =
      (okta.map (fun g => (g.1, resolveAll cu g.2))).filter (fun p => !p.2.isEmpty) := by
  have h := match_users_aux cu okta [] (by simp) hok
  rw [List.nil_append] at h
  exact h

theorem mem_resolveAll {cu : List ClickUpUser} {emails : List String} {x : Nat} :
    x ∈ resolveAll cu emails ↔ ∃ e ∈ emails, ∃ u ∈ cu, u.email = e ∧ u.id = x := by
  simp only [resolveAll, List.mem_flatMap, List.mem_map, List.mem_filter, beq_iff_eq]
  constructor
  · intro ⟨e, he, u, ⟨hu, hue⟩, hid⟩
    exact ⟨e, he, u, hu, hue, hid⟩
  · intro ⟨e, he, u, hu, hue, hid⟩
    exact ⟨e, he, u, ⟨hu, hue⟩, hid⟩

theorem resolveAll_ne_nil {cu : List ClickUpUser} {emails : List String} :
    resolveAll cu emails ≠ [] ↔ ∃ e ∈ emails, ∃ u ∈ cu, u.email = e := by
  constructor
  · intro h
    obtain ⟨x, hx⟩ := List.exists_mem_of_ne_nil _ h
    obtain ⟨e, he, u, hu, hue, _⟩ := mem_resolveAll.mp hx
    exact ⟨e, he, u, hu, hue⟩
  · intro ⟨e, he, u, hu, hue⟩ h
    have : u.id ∈ resolveAll cu emails := mem_resolveAll.mpr ⟨e, he, u, hu, hue, rfl⟩
    rw [h] at this
    cases this

theorem keys_filtered_nodup {okta : List (String × List String)} {cu : List ClickUpUser}
    (hok : (okta.map Prod.fst).Nodup) :
    (((okta.map (fun g => (g.1, resolveAll cu g.2))).filter
        (fun p => !p.2.isEmpty)).map Prod.fst).Nodup := by
  have hsub : ((okta.map (fun g => (g.1, resolveAll cu g.2))).filter
      (fun p => !p.2.isEmpty)).Sublist (okta.map (fun g => (g.1, resolveAll cu g.2))) :=
    List.filter_sublist _
  have hsub2 := hsub.map Prod.fst
  have hkeys : (okta.map (fun g => (g.1, resolveAll cu g.2))).map Prod.fst =
      okta.map Prod.fst := by
    rw [List.map_map]
    rfl
  rw [hkeys] at hsub2
  exact hsub2.nodup hok

/-- Claim C2 (amended): a source group's name appears in the membership
matcher's output exactly when at least one of its member emails resolves
against the roster; a group with zero resolvable members is absent from the
output, not present with an empty set. -/
theorem C2_membership_matcher (okta : List (String × List String))
    (cu : List ClickUpUser) (hok : (okta.map Prod.fst).Nodup) (n : String) :
    n ∈ (match_users okta cu).map Prod.fst ↔
      ∃ emails, (n, emails) ∈ okta ∧ ∃ e ∈ emails, ∃ u ∈ cu, u.email = e := by
  rw [match_users_eq okta cu hok]
  constructor
  · intro h
    obtain ⟨p, hp, hfst⟩ := List.mem_map.mp h
    obtain ⟨hpm, hpe⟩ := List.mem_filter.mp hp
    obtain ⟨g, hg, hge⟩ := List.mem_map.mp hpm
    refine ⟨g.2, ?_, ?_⟩
    · have h1 : g.1 = n := by
        rw [← hfst, ← hge]
      have h2 : (g.1, g.2) = g := rfl
      rw [← h1, h2]
      exact hg
    · apply resolveAll_ne_nil.mp
      intro hnil
      have : p.2 = resolveAll cu g.2 := by rw [← hge]
      rw [this, hnil] at hpe
      simp at hpe
  · intro ⟨emails, hmem, hres⟩
    have hne : resolveAll cu emails ≠ [] := resolveAll_ne_nil.mpr hres
    refine List.mem_map.mpr ⟨(n, resolveAll cu emails), ?_, rfl⟩
    refine List.mem_filter.mpr ⟨List.mem_map.mpr ⟨(n, emails), hmem, rfl⟩, ?_⟩
    simpa using hne

/-- Claim C2 counterexample: a source group `"g"` whose single email
resolves against an empty roster (zero resolvable members) is absent from
the matcher's output, instead of appearing with an empty set. -/
theorem C2_counterexample :
    "g" ∈ ([("g", ["a@x.com"])].map Prod.fst : List String) ∧
    "g" ∉ (match_users [("g", ["a@x.com"])] []).map Prod.fst := by
  decide

/-- Claim C2 witness: a group with one resolvable member appears in the
matcher's output. -/
theorem C2_membership_matcher_witness :
    "g" ∈ (match_users [("g", ["a@x.com"])] [⟨7, "a@x.com"⟩]).map Prod.fst := by
  exact (C2_membership_matcher [("g", ["a@x.com"])] [⟨7, "a@x.com"⟩] (by decide) "g").mpr
    ⟨["a@x.com"], by decide, "a@x.com", by decide, ⟨7, "a@x.com"⟩, by decide, rfl⟩

/-- Claim C7 (amended): the desired id list a group accumulates is
`resolveAll`: for each member email, the id of every roster entry whose
email equals it under case-sensitive exact match, in roster order - an
email with no match contributes nothing, and an email matching several
roster entries (duplicate emails) contributes every matching id, not just
the first. -/
theorem C7_identity_resolution (okta : List (String × List String))
    (cu : List ClickUpUser) (hok : (okta.map Prod.fst).Nodup)
    (n : String) (emails : List String) (hmem : (n, emails) ∈ okta) :
    (lookupKey (match_users okta cu) n =
      if (resolveAll cu emails).isEmpty then none else some (resolveAll cu emails)) ∧
    (∀ x, x ∈ resolveAll cu emails ↔ ∃ e ∈ emails, ∃ u ∈ cu, u.email = e ∧ u.id = x) := by
  refine ⟨?_, fun x => mem_resolveAll⟩
  rw [match_users_eq okta cu hok]
  by_cases hX : (resolveAll cu emails).isEmpty
  · rw [if_pos hX]
    apply lookupKey_eq_none.mpr
    intro p hp he
    obtain ⟨hpm, hpe⟩ := List.mem_filter.mp hp
    obtain ⟨g, hg, hge⟩ := List.mem_map.mp hpm
    have h1 : g.1 = n := by rw [← he, ← hge]
    have h2 : g = (n, emails) := by
      apply List.inj_on_of_nodup_map hok hg hmem h1
    have h3 : p.2 = resolveAll cu emails := by
      rw [← hge, h2]
    rw [h3, List.isEmpty_iff.mp hX] at hpe
    simp at hpe
  · rw [if_neg hX]
    apply lookupKey_of_mem_nodup (keys_filtered_nodup hok)
    refine List.mem_filter.mpr ⟨List.mem_map.mpr ⟨(n, emails), hmem, rfl⟩, ?_⟩
    simpa using hX

/-- Claim C7 counterexample: with two roster entries sharing the email, the
matcher contributes both ids to the desired set, not the single first
match. -/
theorem C7_counterexample :
    match_users [("g", ["a@x.com"])] [⟨1, "a@x.com"⟩, ⟨2, "a@x.com"⟩] = [("g", [1, 2])] ∧
    ([1, 2] : List Nat) ≠ [1] := by
  decide

/-- Claim C7 witness: an email matching one roster entry contributes that
id; an email with no match contributes nothing. -/
theorem C7_identity_resolution_witness :
    lookupKey (match_users [("g", ["b@x.com", "a@x.com"])] [⟨1, "a@x.com"⟩]) "g" =
      some [1] := by
  have h := (C7_identity_resolution [("g", ["b@x.com", "a@x.com"])] [⟨1, "a@x.com"⟩]
    (by decide) "g" ["b@x.com", "a@x.com"] (by decide)).1
  rw [h]
  decide

/-! The dict builders only ever produce maps with pairwise-distinct keys. -/

theorem foldl_preserves {α β : Type} (P : β → Prop) (step : β → α → β)
    (h : ∀ b a, P b → P (step b a)) :
    ∀ (l : List α) (b : β), P b → P (l.foldl step b) := by
  intro l
  induction l with
  | nil =>
    intro b hb
    exact hb
  | cons a t ih =>
    intro b hb
    rw [List.foldl_cons]
    exact ih _ (h b a hb)

theorem dictAppend_keys_nodup {d : List (String × List Nat)} {k : String} {v : Nat}
    (h : (d.map Prod.fst).Nodup) : ((dictAppend d k v).map Prod.fst).Nodup := by
  unfold dictAppend
  split
  · have hkeys : (d.map (fun p => if p.1 = k then (p.1, p.2 ++ [v]) else p)).map Prod.fst =
        d.map Prod.fst := by
      rw [List.map_map]
      apply List.map_congr_left
      intro p _
      by_cases hp : p.1 = k <;> simp [hp]
    rw [hkeys]
    exact h
  · rename_i hany
    rw [List.map_append]
    refine List.Nodup.append h (by simp) ?_
    intro x hx hx2
    have hxk : x = k := by simpa using hx2
    obtain ⟨p, hp, hpf⟩ := List.mem_map.mp hx
    have : ¬ (d.any (fun p => p.1 == k) = true) := hany
    rw [List.any_eq_true] at this
    exact this ⟨p, hp, by simp [hpf, hxk]⟩

theorem dictInsert_keys_nodup {α : Type} {d : List (String × α)} {k : String} {v : α}
    (h : (d.map Prod.fst).Nodup) : ((dictInsert d k v).map Prod.fst).Nodup := by
  unfold dictInsert
  split
  · have hkeys : (d.map (fun p => if p.1 = k then (p.1, v) else p)).map Prod.fst =
        d.map Prod.fst := by
      rw [List.map_map]
      apply List.map_congr_left
      intro p _
      by_cases hp : p.1 = k <;> simp [hp]
    rw [hkeys]
    exact h
  · rename_i hany
    rw [List.map_append]
    refine List.Nodup.append h (by simp) ?_
    intro x hx hx2
    have hxk : x = k := by simpa using hx2
    obtain ⟨p, hp, hpf⟩ := List.mem_map.mp hx
    have : ¬ (d.any (fun p => p.1 == k) = true) := hany
    rw [List.any_eq_true] at this
    exact this ⟨p, hp, by simp [hpf, hxk]⟩

theorem match_users_keys_nodup (okta : List (String × List String))
    (cu : List ClickUpUser) : ((match_users okta cu).map Prod.fst).Nodup := by
  unfold match_users
  refine foldl_preserves (fun d : List (String × List Nat) => ((d.map Prod.fst).Nodup)) _ ?_ okta [] (by simp)
  intro acc g hacc
  refine foldl_preserves (fun d => ((d.map Prod.fst).Nodup)) _ ?_ g.2 acc hacc
  intro acc2 email hacc2
  refine foldl_preserves (fun d => ((d.map Prod.fst).Nodup)) _ ?_ cu acc2 hacc2
  intro acc3 user hacc3
  split
  · exact dictAppend_keys_nodup hacc3
  · exact hacc3

theorem get_clickup_groups_keys_nodup (prefixes : List String)
    (raw : List RawClickUpGroup) :
    ((get_clickup_groups prefixes raw).map Prod.fst).Nodup := by
  unfold get_clickup_groups
  refine foldl_preserves (fun d : List (String × ClickUpGroupProps) => ((d.map Prod.fst).Nodup)) _ ?_ raw [] (by simp)
  intro acc g hacc
  split
  · exact dictInsert_keys_nodup hacc
  · exact hacc

/-- Claim C10: in a full run - desired mapping from `match_users`, target
mapping from `get_clickup_groups`, both dicts keying names uniquely - at
most one mutation intent is issued per group name; a create only when the
name is absent from the target mapping, an update only when it is present,
with that entry's id; never both for the same name. -/
theorem C10_one_intent_per_name
    (oktaRaw : List (String × List String)) (users : List ClickUpUser)
    (prefixes : List String) (raw : List RawClickUpGroup) (n : String) :
    ((sync_groups_plan (match_users oktaRaw users)
        (get_clickup_groups prefixes raw)).filter
          (fun i => intentName i == n)).length ≤ 1 ∧
    (∀ mems, MutationIntent.createGroup n mems ∈
        sync_groups_plan (match_users oktaRaw users) (get_clickup_groups prefixes raw) →
      lookupKey (get_clickup_groups prefixes raw) n = none) ∧
    (∀ gid add rem, MutationIntent.updateGroup gid n add rem ∈
        sync_groups_plan (match_users oktaRaw users) (get_clickup_groups prefixes raw) →
      ∃ props, lookupKey (get_clickup_groups prefixes raw) n = some props ∧
        gid = props.id) := by
  have hok := match_users_keys_nodup oktaRaw users
  have hcg := get_clickup_groups_keys_nodup prefixes raw
  refine ⟨?_, ?_, ?_⟩
  · by_cases hn : ∃ m, (n, m) ∈ match_users oktaRaw users
    · obtain ⟨m, hm⟩ := hn
      rw [plan_filter_name hok hm]
      exact diffOne_length_le _ _ _ hcg
    · have hfil : (sync_groups_plan (match_users oktaRaw users)
          (get_clickup_groups prefixes raw)).filter (fun i => intentName i == n) = [] := by
        rw [List.filter_eq_nil_iff]
        intro i hi
        have hmem := intentName_of_mem_plan hi
        simp only [beq_iff_eq]
        intro he
        obtain ⟨g, hg, hgf⟩ := List.mem_map.mp hmem
        exact hn ⟨g.2, by rw [← he, ← hgf]; exact hg⟩
      rw [hfil]
      simp
  · intro mems hc
    obtain ⟨og, _, hdi⟩ := mem_plan.mp hc
    obtain ⟨hnm, _, hall⟩ := mem_diffOne_create_inv hdi
    apply lookupKey_eq_none.mpr
    intro p hp
    rw [hnm]
    exact hall p hp
  · intro gid add rem hu
    obtain ⟨og, _, hdi⟩ := mem_plan.mp hu
    obtain ⟨p, hp, hpn, hnn, hgid, _⟩ := mem_diffOne_update_inv hdi
    refine ⟨p.2, ?_, hgid⟩
    apply lookupKey_of_mem_nodup hcg
    have : p = (n, p.2) := by
      have : p.1 = n := by rw [hpn, ← hnn]
      rw [← this]
    rw [← this]
    exact hp

/-! Applying a plan to a target snapshot: how it changes lookups and keys. -/

theorem lookupKey_update_map (nm : String) (add rem : List Nat) :
    ∀ (cg : List (String × ClickUpGroupProps)) (n : String),
      lookupKey (cg.map (fun p =>
        if p.1 = nm then
          (p.1, ⟨p.2.id, p.2.members.filter (fun x => decide (x ∉ rem)) ++ add⟩)
        else p)) n =
      (lookupKey cg n).map (fun props =>
        if n = nm then
          ⟨props.id, props.members.filter (fun x => decide (x ∉ rem)) ++ add⟩
        else props) := by
  intro cg
  induction cg with
  | nil =>
    intro n
    rfl
  | cons p rest ih =>
    intro n
    rw [List.map_cons]
    unfold lookupKey
    rw [List.find?_cons, List.find?_cons]
    have hfst : ((if p.1 = nm then
        (p.1, (⟨p.2.id, p.2.members.filter (fun x => decide (x ∉ rem)) ++ add⟩ :
          ClickUpGroupProps))
      else p)).1 = p.1 := by
      by_cases hp : p.1 = nm <;> simp [hp]
    rcases hpn : (p.1 == n) with _ | _
    · rw [hfst, hpn]
      exact ih n
    · rw [hfst, hpn]
      simp only [Option.map_some']
      have hn : p.1 = n := by simpa using hpn
      by_cases hp : p.1 = nm
      · rw [if_pos hp, if_pos (by rw [← hn, hp])]
      · rw [if_neg hp, if_neg (by rw [← hn]; exact hp)]

theorem lookupKey_applyIntent_ne {freshId : String → String}
    {cg : List (String × ClickUpGroupProps)} {i : MutationIntent} {n : String}
    (h : intentName i ≠ n) :
    lookupKey (applyIntent freshId cg i) n = lookupKey cg n := by
  match i with
  | .createGroup nm mems =>
    have hnm : nm ≠ n := h
    show lookupKey (cg ++ [(nm, (⟨freshId nm, mems⟩ : ClickUpGroupProps))]) n = _
    unfold lookupKey
    rw [List.find?_append]
    have hsingle : List.find? (fun p => p.1 == n)
        [(nm, (⟨freshId nm, mems⟩ : ClickUpGroupProps))] = none := by
      simp [List.find?_cons, hnm]
    rw [hsingle, Option.or_none]
  | .updateGroup gid nm add rem =>
    have hnm : nm ≠ n := h
    show lookupKey (cg.map _) n = _
    rw [lookupKey_update_map nm add rem cg n]
    rcases lookupKey cg n with _ | props
    · rfl
    · simp only [Option.map_some']
      rw [if_neg (fun he => hnm he.symm)]

theorem lookupKey_applyIntent_create {freshId : String → String}
    {cg : List (String × ClickUpGroupProps)} {n : String} {m : List Nat}
    (h : lookupKey cg n = none) :
    lookupKey (applyIntent freshId cg (MutationIntent.createGroup n m)) n =
      some ⟨freshId n, m⟩ := by
  show lookupKey (cg ++ [(n, (⟨freshId n, m⟩ : ClickUpGroupProps))]) n = _
  unfold lookupKey at h ⊢
  rw [Option.map_eq_none'] at h
  rw [List.find?_append, h, Option.none_or]
  simp [List.find?_cons]

theorem lookupKey_applyIntent_update {freshId : String → String}
    {cg : List (String × ClickUpGroupProps)} {n gid : String}
    {props : ClickUpGroupProps} {add rem : List Nat}
    (h : lookupKey cg n = some props) :
    lookupKey (applyIntent freshId cg (MutationIntent.updateGroup gid n add rem)) n =
      some ⟨props.id, props.members.filter (fun x => decide (x ∉ rem)) ++ add⟩ := by
  show lookupKey (cg.map _) n = _
  rw [lookupKey_update_map n add rem cg n, h]
  simp

theorem lookupKey_applyIntents_ne {freshId : String → String} {n : String} :
    ∀ (intents : List MutationIntent) (cg : List (String × ClickUpGroupProps)),
      (∀ i ∈ intents, intentName i ≠ n) →
      lookupKey (applyIntents freshId cg intents) n = lookupKey cg n := by
  intro intents
  induction intents with
  | nil =>
    intro cg _
    rfl
  | cons i t ih =>
    intro cg h
    show lookupKey (applyIntents freshId (applyIntent freshId cg i) t) n = _
    rw [ih _ (fun j hj => h j (List.mem_cons_of_mem i hj))]
    exact lookupKey_applyIntent_ne (h i (List.mem_cons_self i t))

theorem applyIntent_keys (freshId : String → String)
    (cg : List (String × ClickUpGroupProps)) (i : MutationIntent) :
    (applyIntent freshId cg i).map Prod.fst = cg.map Prod.fst ++ createdNames [i] := by
  match i with
  | .createGroup n m =>
    show (cg ++ [(n, (⟨freshId n, m⟩ : ClickUpGroupProps))]).map Prod.fst = _
    rw [List.map_append]
    rfl
  | .updateGroup gid nm add rem =>
    show (cg.map _).map Prod.fst = _
    rw [List.map_map]
    have hcomp : (Prod.fst ∘ fun p : String × ClickUpGroupProps =>
        if p.1 = nm then
          (p.1, (⟨p.2.id, p.2.members.filter (fun x => decide (x ∉ rem)) ++ add⟩ :
            ClickUpGroupProps))
        else p) = Prod.fst := by
      funext p
      by_cases hp : p.1 = nm <;> simp [hp]
    rw [hcomp]
    simp [createdNames]

theorem applyIntents_keys (freshId : String → String) :
    ∀ (intents : List MutationIntent) (cg : List (String × ClickUpGroupProps)),
      (applyIntents freshId cg intents).map Prod.fst =
        cg.map Prod.fst ++ createdNames intents := by
  intro intents
  induction intents with
  | nil =>
    intro cg
    simp [applyIntents, createdNames]
  | cons i t ih =>
    intro cg
    show (applyIntents freshId (applyIntent freshId cg i) t).map Prod.fst = _
    rw [ih, applyIntent_keys, List.append_assoc]
    congr 1
    cases i <;> simp [createdNames]

theorem createdNames_append (a b : List MutationIntent) :
    createdNames (a ++ b) = createdNames a ++ createdNames b := by
  induction a with
  | nil => rfl
  | cons i t ih => cases i <;> simp [createdNames, ih]

theorem createdNames_update_part (cg : List (String × ClickUpGroupProps))
    (n : String) (m : List Nat) :
    createdNames (cg.flatMap (fun p =>
      if n = p.1 then
        if (sdiffL m p.2.members).length > 0 ∨ (sdiffL p.2.members m).length > 0 then
          [MutationIntent.updateGroup p.2.id p.1 (sdiffL m p.2.members)
            (sdiffL p.2.members m)]
        else []
      else [])) = [] := by
  induction cg with
  | nil => rfl
  | cons p rest ih =>
    rw [List.flatMap_cons, createdNames_append, ih, List.append_nil]
    split
    · split
      · rfl
      · rfl
    · rfl

theorem createdNames_diffOne (cg : List (String × ClickUpGroupProps))
    (n : String) (m : List Nat) :
    createdNames (diffOne cg n m) =
      if cg.any (fun p => p.1 == n) then [] else [n] := by
  unfold diffOne
  rw [createdNames_append, createdNames_update_part, List.append_nil]
  split
  · rfl
  · rfl

theorem plan_createdNames (okta : List (String × List Nat))
    (cg : List (String × ClickUpGroupProps)) :
    createdNames (sync_groups_plan okta cg) =
      (okta.filter (fun og => !(cg.any (fun p => p.1 == og.1)))).map Prod.fst := by
  induction okta with
  | nil => rfl
  | cons og rest ih =>
    have hcons : sync_groups_plan (og :: rest) cg =
        diffOne cg og.1 og.2 ++ sync_groups_plan rest cg := by
      simp [sync_groups_plan]
    rw [hcons, createdNames_append, ih, createdNames_diffOne, List.filter_cons]
    by_cases hany : cg.any (fun p => p.1 == og.1) = true
    · rw [if_pos hany, hany]
      simp
    · have hfalse : cg.any (fun p => p.1 == og.1) = false := Bool.eq_false_iff.mpr hany
      rw [hfalse]
      simp

theorem plan_applied_keys_nodup (freshId : String → String)
    (okta : List (String × List Nat)) (cg : List (String × ClickUpGroupProps))
    (hok : (okta.map Prod.fst).Nodup) (hcg : (cg.map Prod.fst).Nodup) :
    ((applyIntents freshId cg (sync_groups_plan okta cg)).map Prod.fst).Nodup := by
  rw [applyIntents_keys, plan_createdNames]
  refine List.Nodup.append hcg ?_ ?_
  · have hsub : ((okta.filter (fun og => !(cg.any (fun p => p.1 == og.1)))).map
        Prod.fst).Sublist (okta.map Prod.fst) :=
      (List.filter_sublist okta).map Prod.fst
    exact hsub.nodup hok
  · intro x hx hx2
    obtain ⟨og, hog, hof⟩ := List.mem_map.mp hx2
    have hfil := (List.mem_filter.mp hog).2
    rw [Bool.not_eq_true'] at hfil
    rw [List.any_eq_false] at hfil
    obtain ⟨p, hp, hpf⟩ := List.mem_map.mp hx
    exact hfil p hp (by simp [hpf, hof])

theorem applyIntents_append (freshId : String → String)
    (cg : List (String × ClickUpGroupProps)) (a b : List MutationIntent) :
    applyIntents freshId cg (a ++ b) =
      applyIntents freshId (applyIntents freshId cg a) b := by
  unfold applyIntents
  rw [List.foldl_append]

theorem applyIntents_singleton (freshId : String → String)
    (cg : List (String × ClickUpGroupProps)) (i : MutationIntent) :
    applyIntents freshId cg [i] = applyIntent freshId cg i := rfl

theorem applyIntents_nil (freshId : String → String)
    (cg : List (String × ClickUpGroupProps)) :
    applyIntents freshId cg [] = cg := rfl

/-- After applying a full plan, every desired group's entry holds exactly
the desired member set. -/
theorem lookup_after_apply (freshId : String → String)
    (okta : List (String × List Nat)) (cg : List (String × ClickUpGroupProps))
    (hok : (okta.map Prod.fst).Nodup) (hcg : (cg.map Prod.fst).Nodup)
    {n : String} {m : List Nat} (hmem : (n, m) ∈ okta) :
    ∃ props : ClickUpGroupProps,
      lookupKey (applyIntents freshId cg (sync_groups_plan okta cg)) n = some props ∧
      (∀ x, x ∈ props.members ↔ x ∈ m) := by
  obtain ⟨l1, l2, hsplit⟩ := List.append_of_mem hmem
  subst hsplit
  have hok2 := hok
  rw [List.map_append, List.map_cons, List.nodup_middle, List.nodup_cons] at hok2
  have hn1 : n ∉ l1.map Prod.fst := fun hx => hok2.1 (List.mem_append.mpr (Or.inl hx))
  have hn2 : n ∉ l2.map Prod.fst := fun hx => hok2.1 (List.mem_append.mpr (Or.inr hx))
  have hplan : sync_groups_plan (l1 ++ (n, m) :: l2) cg =
      sync_groups_plan l1 cg ++ (diffOne cg n m ++ sync_groups_plan l2 cg) := by
    simp [sync_groups_plan]
  rw [hplan, applyIntents_append, applyIntents_append]
  have hname1 : ∀ i ∈ sync_groups_plan l1 cg, intentName i ≠ n := by
    intro i hi he
    exact hn1 (he ▸ intentName_of_mem_plan hi)
  have hname2 : ∀ i ∈ sync_groups_plan l2 cg, intentName i ≠ n := by
    intro i hi he
    exact hn2 (he ▸ intentName_of_mem_plan hi)
  have hl1 : lookupKey (applyIntents freshId cg (sync_groups_plan l1 cg)) n =
      lookupKey cg n :=
    lookupKey_applyIntents_ne (sync_groups_plan l1 cg) cg hname1
  rcases hlk : lookupKey cg n with _ | props
  · rw [diffOne_absent hlk,
      lookupKey_applyIntents_ne (sync_groups_plan l2 cg) _ hname2,
      applyIntents_singleton]
    exact ⟨⟨freshId n, m⟩, lookupKey_applyIntent_create (hl1.trans hlk),
      fun x => Iff.rfl⟩
  · rw [diffOne_present hcg hlk]
    split
    · rw [lookupKey_applyIntents_ne (sync_groups_plan l2 cg) _ hname2,
        applyIntents_singleton, lookupKey_applyIntent_update (hl1.trans hlk)]
      refine ⟨_, rfl, ?_⟩
      intro x
      constructor
      · intro hx
        rcases List.mem_append.mp hx with hx | hx
        · obtain ⟨hx1, hx2⟩ := List.mem_filter.mp hx
          rw [decide_eq_true_iff] at hx2
          by_contra hxm
          exact hx2 (mem_sdiffL.mpr ⟨hx1, hxm⟩)
        · exact (mem_sdiffL.mp hx).1
      · intro hx
        by_cases hxp : x ∈ props.members
        · refine List.mem_append.mpr (Or.inl (List.mem_filter.mpr ⟨hxp, ?_⟩))
          rw [decide_eq_true_iff]
          intro hc
          exact (mem_sdiffL.mp hc).2 hx
        · exact List.mem_append.mpr (Or.inr (mem_sdiffL.mpr ⟨hx, hxp⟩))
    · rename_i hcond
      rw [applyIntents_nil,
        lookupKey_applyIntents_ne (sync_groups_plan l2 cg) _ hname2, hl1, hlk]
      refine ⟨props, rfl, ?_⟩
      rw [not_or] at hcond
      have h1 := sdiffL_eq_nil.mp (List.length_eq_zero.mp (Nat.eq_zero_of_not_pos hcond.1))
      have h2 := sdiffL_eq_nil.mp (List.length_eq_zero.mp (Nat.eq_zero_of_not_pos hcond.2))
      exact fun x => ⟨fun hx => h2 x hx, fun hx => h1 x hx⟩

theorem plan_eq_nil_iff {okta : List (String × List Nat)}
    {cg : List (String × ClickUpGroupProps)} :
    sync_groups_plan okta cg = [] ↔ ∀ og ∈ okta, diffOne cg og.1 og.2 = [] := by
  simp [sync_groups_plan, List.flatMap_eq_nil_iff]

/-- Claim C6: planning is idempotent - applying the first plan's intents to
the target snapshot (appending created groups with their member sets, and
applying each update's add and remove lists to its group) and recomputing
the diff against the updated snapshot yields no further intents. -/
theorem C6_plan_idempotent (freshId : String → String)
    (okta : List (String × List Nat)) (cg : List (String × ClickUpGroupProps))
    (hok : (okta.map Prod.fst).Nodup) (hcg : (cg.map Prod.fst).Nodup) :
    sync_groups_plan okta (applyIntents freshId cg (sync_groups_plan okta cg)) = [] := by
  rw [plan_eq_nil_iff]
  intro og hog
  have hmem : (og.1, og.2) ∈ okta := by
    have hpair : (og.1, og.2) = og := rfl
    rw [hpair]
    exact hog
  obtain ⟨props, hlk, hiff⟩ := lookup_after_apply freshId okta cg hok hcg hmem
  have h1 : sdiffL og.2 props.members = [] :=
    sdiffL_eq_nil.mpr (fun x hx => (hiff x).mpr hx)
  have h2 : sdiffL props.members og.2 = [] :=
    sdiffL_eq_nil.mpr (fun x hx => (hiff x).mp hx)
  rw [diffOne_present (plan_applied_keys_nodup freshId okta cg hok hcg) hlk, if_neg]
  rw [not_or, h1, h2]
  constructor <;> simp

/-- Claim C6 witness: a concrete snapshot with one group to update and one
to create; replaying the diff after applying the plan yields nothing. -/
theorem C6_plan_idempotent_witness :
    sync_groups_plan [("g", [1, 2]), ("h", [5])]
      (applyIntents (fun nm => nm) [("g", ⟨"G", [2, 3]⟩)]
        (sync_groups_plan [("g", [1, 2]), ("h", [5])] [("g", ⟨"G", [2, 3]⟩)])) = [] :=
  C6_plan_idempotent (fun nm => nm) [("g", [1, 2]), ("h", [5])] [("g", ⟨"G", [2, 3]⟩)]
    (by decide) (by decide)

end OktaClickUpSync
